import Mathlib

/-!
Shallow embedding of the stats_fs source tree (fs/stats_fs/stats_fs.c) and of
the metricfs emitter (kernel/metricfs.c), with theorems about lookup,
aggregation, clearing, revocation, binding registration, label propagation and
buffer-atomic row emission.

Modelling conventions:
* machine words are `Nat` carrying the u64 / u32 bit pattern, reduced `% 2^64`
  (resp. `% 2^32`) where C overflow can occur; signed views are obtained by
  `toS64`;
* memory is a byte map `Nat → Nat` (each byte read `% 256`), multi-byte
  primitives are little-endian as on the reference platform;
* a value array (`struct stats_fs_value *`) is identified by a numeric id, its
  contents given by an environment `Arrays`; a descriptor pointer is the pair
  (array id, index), so C pointer identity becomes equality of those pairs;
* the kernel `list_add` inserts at the head, so every `list_for_each_entry`
  traversal sees the most recently added element first; lists in this file are
  kept in that same traversal order;
* locks are no-ops in this sequential model; fallible calls return `Option` or
  an explicit `Int` status code (`-2` = -ENOENT, `-17` = -EEXIST).
-/

namespace StatsFs

/-- enum stat_type (include/linux/stats_fs.h); the STATS_FS_SIGN bit is the
signedness flag tested by `is_val_signed`. -/
inductive StatType where
  | u8 | u16 | u32 | u64 | boolT | s8 | s16 | s32 | s64
deriving DecidableEq, Repr

/-- is_val_signed: `val->type & STATS_FS_SIGN`. -/
def isValSigned : StatType → Bool
  | .s8 | .s16 | .s32 | .s64 => true
  | _ => false

/-- byte width of the primitive read/written by get_simple_value /
clear_simple_value for each type. -/
def typeSize : StatType → Nat
  | .u8 | .s8 | .boolT => 1
  | .u16 | .s16 => 2
  | .u32 | .s32 => 4
  | .u64 | .s64 => 8

/-- enum stat_aggr. -/
inductive StatAggr where
  | none | sum | min | max | countZero | avg
deriving DecidableEq, Repr

/-- struct stats_fs_value (schema row; desc/flag/mode carried but unused by the
value paths modelled here). -/
structure StatsFsValue where
  name : String
  offset : Nat
  type : StatType
  aggr_kind : StatAggr
  desc : String := ""
  mode : Nat := 0
deriving DecidableEq, Repr

/-- environment mapping a value-array id to the descriptors of the
NULL-terminated C array (terminator excluded). -/
def Arrays : Type := Nat → List StatsFsValue

/-- a `struct stats_fs_value *` pointer into some array: (array id, index). -/
structure ValueRef where
  arr : Nat
  idx : Nat
deriving DecidableEq, Repr

/-- struct stats_fs_value_source: one binding (base address, value array). -/
structure ValueSource where
  base_addr : Option Nat
  values : Nat
deriving DecidableEq, Repr

mutual
/-- struct stats_fs_source with its subordinate list. Field order: bindings
(values_head), labels (labels_head), subordinates (subordinates_head). -/
inductive Source where
  | mk : List ValueSource → List (String × String) → Forest → Source
/-- the linked list of subordinate sources of a node. -/
inductive Forest where
  | nil : Forest
  | cons : Source → Forest → Forest
end

def Source.bindings : Source → List ValueSource
  | .mk b _ _ => b

def Source.labels : Source → List (String × String)
  | .mk _ l _ => l

def Source.subs : Source → Forest
  | .mk _ _ f => f

/-- byte map; reads take each byte `% 256`. -/
def Mem : Type := Nat → Nat

/-- little-endian read of `n` bytes starting at `addr`. -/
def readBytes (mem : Mem) (addr : Nat) : Nat → Nat
  | 0 => 0
  | n + 1 => (mem addr % 256) + 256 * readBytes mem (addr + 1) n

/-- u64 bit pattern of sign-extending an `n`-byte two's-complement value. -/
def signExtend (n : Nat) (v : Nat) : Nat :=
  if v < 2 ^ (8 * n - 1) then v else v + (2 ^ 64 - 2 ^ (8 * n))

/-- signed (int64_t) view of a u64 bit pattern. -/
def toS64 (v : Nat) : Int :=
  if v < 2 ^ 63 then (v : Int) else (v : Int) - 2 ^ 64

/-- get_simple_value: read one primitive at base+offset, widened to u64
(sign-extending for signed types); the switch covers all nine types. -/
def get_simple_value (mem : Mem) (base : Nat) (val : StatsFsValue) : Nat :=
  let addr := base + val.offset
  match val.type with
  | .u8 => readBytes mem addr 1
  | .s8 => signExtend 1 (readBytes mem addr 1)
  | .u16 => readBytes mem addr 2
  | .s16 => signExtend 2 (readBytes mem addr 2)
  | .u32 => readBytes mem addr 4
  | .s32 => signExtend 4 (readBytes mem addr 4)
  | .u64 => readBytes mem addr 8
  | .s64 => signExtend 8 (readBytes mem addr 8)
  | .boolT => readBytes mem addr 1

/-- find_value: scan the entries of the array `aid` for pointer identity with
`arg`; a match exists exactly when `arg` points into this array at an index
before the NULL terminator. -/
def find_value (arrays : Arrays) (aid : Nat) (arg : ValueRef) : Option StatsFsValue :=
  if arg.arr = aid then (arrays aid).get? arg.idx else none

/-- search_value_in_source: first binding (in traversal order) whose array
contains `arg`, together with the found descriptor. -/
def search_value_in_source (arrays : Arrays) :
    List ValueSource → ValueRef → Option (ValueSource × StatsFsValue)
  | [], _ => none
  | b :: rest, arg =>
    match find_value arrays b.values arg with
    | some entry => some (b, entry)
    | none => search_value_in_source arrays rest arg

/-- struct stats_fs_aggregate_value. -/
structure AggValue where
  sum : Nat
  min : Nat
  max : Nat
  count : Nat
  count_zero : Nat
deriving DecidableEq, Repr

/-- init_aggregate_value: S64_MIN/S64_MAX sentinels for signed descriptors,
0/U64_MAX for unsigned ones (as u64 bit patterns). -/
def init_aggregate_value (val : StatsFsValue) : AggValue :=
  if isValSigned val.type then
    { sum := 0, count := 0, count_zero := 0, max := 2 ^ 63, min := 2 ^ 63 - 1 }
  else
    { sum := 0, count := 0, count_zero := 0, max := 0, min := 2 ^ 64 - 1 }

/-- loop body of search_all_simple_values for one contributing value. -/
def accum_value (val : StatsFsValue) (agg : AggValue) (value_found : Nat) : AggValue :=
  let agg :=
    { agg with
      sum := (agg.sum + value_found) % 2 ^ 64
      count := (agg.count + 1) % 2 ^ 32
      count_zero :=
        if value_found = 0 then (agg.count_zero + 1) % 2 ^ 32 else agg.count_zero }
  if isValSigned val.type then
    { agg with
      max := if toS64 value_found ≥ toS64 agg.max then value_found else agg.max
      min := if toS64 value_found ≤ toS64 agg.min then value_found else agg.min }
  else
    { agg with
      max := if value_found ≥ agg.max then value_found else agg.max
      min := if value_found ≤ agg.min then value_found else agg.min }

/-- search_all_simple_values: scan a binding list, skipping bindings with NULL
base and bindings whose array differs from the reference array. -/
def search_all_simple_values (mem : Mem) (ref_values : Nat) (val : StatsFsValue) :
    List ValueSource → AggValue → AggValue
  | [], agg => agg
  | b :: rest, agg =>
    match b.base_addr with
    | Option.none => search_all_simple_values mem ref_values val rest agg
    | some base =>
      if b.values = ref_values then
        search_all_simple_values mem ref_values val rest
          (accum_value val agg (get_simple_value mem base val))
      else
        search_all_simple_values mem ref_values val rest agg

mutual
/-- do_recursive_aggregation: fold the node's own bindings, then recurse into
every subordinate. -/
def do_recursive_aggregation (mem : Mem) (ref_values : Nat) (val : StatsFsValue) :
    Source → AggValue → AggValue
  | .mk binds _ subs, agg =>
    aggregate_forest mem ref_values val subs
      (search_all_simple_values mem ref_values val binds agg)
/-- the subordinate loop of do_recursive_aggregation. -/
def aggregate_forest (mem : Mem) (ref_values : Nat) (val : StatsFsValue) :
    Forest → AggValue → AggValue
  | .nil, agg => agg
  | .cons s rest, agg =>
    aggregate_forest mem ref_values val rest
      (do_recursive_aggregation mem ref_values val s agg)
end

/-- store_final_value: dispatch on `aggr_kind | is_val_signed`; the NONE case
falls through the switch leaving the result at the 0 written on entry to
stats_fs_source_get_value_locked. -/
def store_final_value (agg : AggValue) (val : StatsFsValue) : Nat :=
  match val.aggr_kind, isValSigned val.type with
  | .avg, false => if agg.count ≠ 0 then agg.sum / agg.count else 0
  | .avg, true =>
    if agg.count ≠ 0 then
      ((Int.tdiv (toS64 agg.sum) (agg.count : Int)) % (2 ^ 64 : Int)).toNat
    else 0
  | .sum, _ => agg.sum
  | .min, _ => agg.min
  | .max, _ => agg.max
  | .countZero, _ => agg.count_zero
  | .none, _ => 0

/-- stats_fs_source_get_value_locked: locate the descriptor; direct read when
the owning binding has a non-NULL base, otherwise accumulate over the subtree;
`Option.none` models -ENOENT. -/
def stats_fs_source_get_value_locked (arrays : Arrays) (mem : Mem)
    (source : Source) (arg : ValueRef) : Option Nat :=
  match search_value_in_source arrays source.bindings arg with
  | Option.none => Option.none
  | some (src_entry, found) =>
    match src_entry.base_addr with
    | some base => some (get_simple_value mem base found)
    | Option.none =>
      some (store_final_value
        (do_recursive_aggregation mem src_entry.values found source
          (init_aggregate_value found)) found)

/-- stats_fs_source_get_value (the lock around the locked variant is a no-op
here). -/
def stats_fs_source_get_value (arrays : Arrays) (mem : Mem)
    (source : Source) (arg : ValueRef) : Option Nat :=
  stats_fs_source_get_value_locked arrays mem source arg

/-- find_value_by_name over one array: index of the first entry whose name
matches (the loop walks the array front to back). -/
def find_by_name_idx : List StatsFsValue → String → Option Nat
  | [], _ => Option.none
  | v :: rest, n =>
    if v.name = n then some 0 else (find_by_name_idx rest n).map (· + 1)

/-- search_in_source_by_name: first binding in traversal order whose array
contains the name; the result is the descriptor pointer handed on to
stats_fs_source_get_value_locked. -/
def search_in_source_by_name (arrays : Arrays) :
    List ValueSource → String → Option ValueRef
  | [], _ => Option.none
  | b :: rest, n =>
    match find_by_name_idx (arrays b.values) n with
    | some i => some ⟨b.values, i⟩
    | Option.none => search_in_source_by_name arrays rest n

/-- stats_fs_source_get_value_by_name. -/
def stats_fs_source_get_value_by_name (arrays : Arrays) (mem : Mem)
    (source : Source) (name : String) : Option Nat :=
  match search_in_source_by_name arrays source.bindings name with
  | Option.none => Option.none
  | some ref => stats_fs_source_get_value_locked arrays mem source ref

/-- stats_fs_source_add_values: reject a binding matching an existing one on
both base pointer and array pointer with -EEXIST (17), else `list_add` the new
binding at the head; the returned source is the (possibly updated) node. -/
def stats_fs_source_add_values (source : Source) (stat : Nat)
    (ptr : Option Nat) : Int × Source :=
  match source with
  | .mk binds lbls subs =>
    if binds.any (fun e => decide (e.base_addr = ptr ∧ e.values = stat)) then
      (-17, source)
    else
      (0, .mk ({ base_addr := ptr, values := stat } :: binds) lbls subs)

/-- stats_fs_source_create: empty binding and subordinate lists, label list
seeded with the single pair (label_key, name). -/
def stats_fs_source_create (name label_key : String) : Source :=
  .mk [] [(label_key, name)] .nil

/-- the label-copy loop of stats_fs_source_add_subordinate: each of the
parent's labels is copied and `list_add`-ed (prepended) to the child's list. -/
def copy_labels : List (String × String) → List (String × String) →
    List (String × String)
  | [], to_labels => to_labels
  | l :: rest, to_labels => copy_labels rest (l :: to_labels)

/-- stats_fs_source_add_subordinate: prepend the child to the parent's
subordinate list and copy all parent labels onto the child. Both the updated
parent and the updated child object are returned (in C both are reached
through pointers). -/
def stats_fs_source_add_subordinate : Source → Source → Source × Source
  | .mk pb pl ps, .mk cb cl cs =>
    let child := Source.mk cb (copy_labels pl cl) cs
    (.mk pb pl (.cons child ps), child)

/-- stats_fs_source_revoke: set every binding's base to NULL on this source
only (subordinates and labels untouched). -/
def stats_fs_source_revoke : Source → Source
  | .mk binds lbls subs =>
    .mk (binds.map (fun b => { b with base_addr := Option.none })) lbls subs

/-- zero `n` bytes starting at `addr`. -/
def writeZeroBytes (mem : Mem) (addr n : Nat) : Mem :=
  fun x => if addr ≤ x ∧ x < addr + n then 0 else mem x

/-- clear_simple_value: write a zero of the descriptor's type at base+offset
(the switch covers all nine types, one store per width). -/
def clear_simple_value (mem : Mem) (base : Nat) (val : StatsFsValue) : Mem :=
  let addr := base + val.offset
  match val.type with
  | .u8 => writeZeroBytes mem addr 1
  | .s8 => writeZeroBytes mem addr 1
  | .u16 => writeZeroBytes mem addr 2
  | .s16 => writeZeroBytes mem addr 2
  | .u32 => writeZeroBytes mem addr 4
  | .s32 => writeZeroBytes mem addr 4
  | .u64 => writeZeroBytes mem addr 8
  | .s64 => writeZeroBytes mem addr 8
  | .boolT => writeZeroBytes mem addr 1

/-- set_all_simple_values: clear the field in every binding of the list whose
base is non-NULL and whose array equals the reference array. -/
def set_all_simple_values (ref_values : Nat) (val : StatsFsValue) :
    List ValueSource → Mem → Mem
  | [], mem => mem
  | b :: rest, mem =>
    match b.base_addr with
    | Option.none => set_all_simple_values ref_values val rest mem
    | some base =>
      if b.values = ref_values then
        set_all_simple_values ref_values val rest
          (clear_simple_value mem base val)
      else
        set_all_simple_values ref_values val rest mem

mutual
/-- do_recursive_clean: clear matching simple values in the node, then recurse
into every subordinate. -/
def do_recursive_clean (ref_values : Nat) (val : StatsFsValue) :
    Source → Mem → Mem
  | .mk binds _ subs, mem =>
    clean_forest ref_values val subs (set_all_simple_values ref_values val binds mem)
/-- the subordinate loop of do_recursive_clean. -/
def clean_forest (ref_values : Nat) (val : StatsFsValue) : Forest → Mem → Mem
  | .nil, mem => mem
  | .cons s rest, mem =>
    clean_forest ref_values val rest (do_recursive_clean ref_values val s mem)
end

/-- stats_fs_source_clear_locked: locate the descriptor; clear directly when
the owning binding has a non-NULL base, else clear recursively; `Option.none`
models -ENOENT. -/
def stats_fs_source_clear_locked (arrays : Arrays) (source : Source)
    (arg : ValueRef) (mem : Mem) : Option Mem :=
  match search_value_in_source arrays source.bindings arg with
  | Option.none => Option.none
  | some (src_entry, found) =>
    match src_entry.base_addr with
    | some base => some (clear_simple_value mem base found)
    | Option.none => some (do_recursive_clean src_entry.values found source mem)

mutual
/-- all bindings of a subtree in walk order: the node's own list first, then
each subordinate subtree. -/
def bindings_of_tree : Source → List ValueSource
  | .mk binds _ subs => binds ++ bindings_of_forest subs
/-- bindings of a subordinate list. -/
def bindings_of_forest : Forest → List ValueSource
  | .nil => []
  | .cons s rest => bindings_of_tree s ++ bindings_of_forest rest
end

/-- the contributing values a subtree walk reads for a given reference array:
one u64 per binding with non-NULL base and identical array pointer. -/
def contribs_of_binds (mem : Mem) (val : StatsFsValue) (ref_values : Nat)
    (binds : List ValueSource) : List Nat :=
  binds.filterMap (fun b =>
    match b.base_addr with
    | Option.none => Option.none
    | some base =>
      if b.values = ref_values then some (get_simple_value mem base val)
      else Option.none)

/-- contributing values of the whole subtree rooted at a source. -/
def contrib_values (mem : Mem) (val : StatsFsValue) (ref_values : Nat)
    (s : Source) : List Nat :=
  contribs_of_binds mem val ref_values (bindings_of_tree s)

mutual
/-- replace the subtree reached by a path of subordinate indices (the path
addresses a node; an out-of-range path leaves the tree unchanged). -/
def replace_in_tree : Source → List Nat → Source → Source
  | _, [], r => r
  | .mk b l f, i :: p, r => .mk b l (replace_in_forest f i p r)
/-- replace within a subordinate list. -/
def replace_in_forest : Forest → Nat → List Nat → Source → Forest
  | .nil, _, _, _ => .nil
  | .cons s rest, 0, p, r => .cons (replace_in_tree s p r) rest
  | .cons s rest, i + 1, p, r => .cons s (replace_in_forest rest i p r)
end

/-- a source with its binding list removed (comparison point for revocation:
a revoked source contributes to aggregation exactly like one with no
bindings). -/
def with_no_bindings : Source → Source
  | .mk _ lbls subs => .mk [] lbls subs

/-- a chain of sources built from the root down: each step creates a fresh
source and links it under the previous deepest node; the deepest node is
returned. -/
def chain_link : Source → List (String × String) → Source
  | root, [] => root
  | root, (n, k) :: rest =>
    chain_link (stats_fs_source_add_subordinate root (stats_fs_source_create n k)).2 rest

/-! Concrete value arrays, memory and sources used to evaluate the operations
on explicit inputs. Array 1 holds a u64 SUM descriptor named "x"; arrays 2 and
7 each hold a simple (NONE) u64 descriptor named "x"; array 5 a signed s32 MIN
descriptor; array 6 a u8 AVG descriptor. -/

def exArrays : Arrays := fun aid =>
  if aid = 1 then [{ name := "x", offset := 0, type := .u64, aggr_kind := .sum }]
  else if aid = 2 then [{ name := "x", offset := 0, type := .u64, aggr_kind := .none }]
  else if aid = 5 then [{ name := "m", offset := 0, type := .s32, aggr_kind := .min }]
  else if aid = 6 then [{ name := "a", offset := 0, type := .u8, aggr_kind := .avg }]
  else if aid = 7 then [{ name := "x", offset := 0, type := .u64, aggr_kind := .none }]
  else []

def exMem : Mem := fun a =>
  if a = 100 then 5
  else if a = 200 then 7
  else if a = 300 then 3
  else if a = 400 then 4
  else if a = 500 then 127
  else if a = 501 then 255
  else 0

/-- the SUM descriptor of array 1. -/
def exSumVal : StatsFsValue := { name := "x", offset := 0, type := .u64, aggr_kind := .sum }

/-- a source with two non-NULL bindings of the SUM array 1 (bases 100, 200). -/
def c1src : Source := .mk [⟨some 100, 1⟩, ⟨some 200, 1⟩] [] .nil

/-- a source with two non-NULL bindings of the SUM array 1 (bases 300, 400). -/
def c2src : Source := .mk [⟨some 300, 1⟩, ⟨some 400, 1⟩] [] .nil

/-- a source holding array 1 as a pure aggregate binding plus one contributing
binding at base 300. -/
def c2wit_src : Source := .mk [⟨Option.none, 1⟩, ⟨some 300, 1⟩] [] .nil

/-- a source holding only a pure aggregate binding of the MIN array 5. -/
def c5wit_src : Source := .mk [⟨Option.none, 5⟩] [] .nil

/-- a source holding a pure aggregate binding of the AVG array 6 plus two
contributing bindings (bases 500, 501). -/
def c6wit_src : Source := .mk [⟨Option.none, 6⟩, ⟨some 500, 6⟩, ⟨some 501, 6⟩] [] .nil

/-- a source with one simple binding of array 2 at base 100. -/
def c4wit_src : Source := .mk [⟨some 100, 2⟩] [] .nil

/-- the source obtained by adding array 2 at base 100 to a fresh source. -/
def c3wit_src : Source := .mk [⟨some 100, 2⟩] [("k", "p")] .nil

/-- a source with one simple binding of array 2 at base 100 (clear target). -/
def c10wit_src : Source := .mk [⟨some 100, 2⟩] [] .nil

/-- a source built by adding array 2 at base 100 first, then array 7 at base
200; both arrays carry a descriptor named "x". -/
def c7src : Source :=
  (stats_fs_source_add_values
    ((stats_fs_source_add_values (stats_fs_source_create ("p") ("k")) 2 (some 100)).2)
    7 (some 200)).2

def c8_src : Source := stats_fs_source_create ("parent") ("parent_dir")
def c8_sub : Source := stats_fs_source_create ("child") ("child_dir")
def c8_subsub : Source := stats_fs_source_create ("grandchild") ("grandchild_dir")

/-- link child under parent (kunit test_labels step 1). -/
def c8_link1 : Source × Source := stats_fs_source_add_subordinate c8_src c8_sub

/-- link grandchild under the linked child (kunit test_labels step 2). -/
def c8_link2 : Source × Source := stats_fs_source_add_subordinate c8_link1.2 c8_subsub

end StatsFs

namespace MetricFs

/-- METRICFS_VALUES_BUF_SIZE: a values file buffer is exactly 64 KiB. -/
def VALUES_BUF_SIZE : Nat := 65536

/-- struct metric_emitter over a values buffer: `cur` is `e->buf -
e->orig_buf`, `buf` the byte content of the per-open buffer by offset. -/
structure Emitter where
  cur : Nat
  buf : Nat → Nat

/-- store a byte string into the buffer starting at `pos`. -/
def writeBytesAt (buf : Nat → Nat) (pos : Nat) : List Nat → Nat → Nat
  | [] => buf
  | b :: rest => writeBytesAt (fun x => if x = pos then b else buf x) (pos + 1) rest

/-- one emit_string / emit_quoted_string / emit_int step: `p` is the byte
string the call wants to append (`rc` is its length). The cursor advances by
`min rc bytes_left` and the call reports success iff `rc < bytes_left`.
(snprintf NUL-terminates inside the same remaining region; the terminator is
overwritten by the next append and never served, so byte content below the
cursor is as modelled.) -/
def emit_piece (e : Emitter) (p : List Nat) : Emitter × Bool :=
  let bytes_left := VALUES_BUF_SIZE - e.cur
  let adv := min p.length bytes_left
  (⟨e.cur + adv, writeBytesAt e.buf e.cur (p.take adv)⟩,
   decide (p.length < bytes_left))

/-- the `ok &= emit_*(...)` sequence of one row: every piece is attempted (C's
`&=` does not short-circuit) and the flags are conjoined. -/
def emit_pieces : Emitter → Bool → List (List Nat) → Emitter × Bool
  | e, ok, [] => (e, ok)
  | e, ok, p :: rest =>
    let step := emit_piece e p
    emit_pieces step.1 (ok && step.2) rest

/-- the checkpoint/rollback body shared by metric_emit_int_value and
metric_emit_str_value: on any failed piece the cursor returns to the pre-row
checkpoint. -/
def metric_emit_row (e : Emitter) (ps : List (List Nat)) : Emitter :=
  let ckpt := e.cur
  let step := emit_pieces e true ps
  if step.2 then step.1 else { step.1 with cur := ckpt }

/-- escape_string over a byte string: newline becomes `\n`, space and
backslash are prefixed with a backslash. -/
def escape_string : List Nat → List Nat
  | [] => []
  | c :: rest =>
    if c = 10 then 92 :: 110 :: escape_string rest
    else if c = 32 ∨ c = 92 then 92 :: c :: escape_string rest
    else c :: escape_string rest

/-- the `%lld` rendering of the int64 value as ASCII bytes. -/
def int64_decimal (v : Int) : List Nat :=
  (toString v).data.map Char.toNat

/-- the pieces of one integer row: escaped field 0 and a space (when present),
then escaped field 1 and a space (only when field 0 is present too), then the
value and a newline — exactly the emit sequence of metric_emit_int_value. -/
def int_row_pieces (v : Int) (f0 f1 : Option (List Nat)) : List (List Nat) :=
  (match f0 with
   | some s0 =>
     escape_string s0 :: [32] ::
       (match f1 with
        | some s1 => [escape_string s1, [32]]
        | Option.none => [])
   | Option.none => []) ++ [int64_decimal v, [10]]

/-- metric_emit_int_value. -/
def metric_emit_int_value (e : Emitter) (v : Int) (f0 f1 : Option (List Nat)) :
    Emitter :=
  metric_emit_row e (int_row_pieces v f0 f1)

/-- total byte length of a row. -/
def row_len (ps : List (List Nat)) : Nat :=
  (ps.map List.length).sum

/-- an emitter whose 64-KiB buffer is already full (cursor at the end). -/
def exEmitter : Emitter := ⟨65536, fun _ => 0⟩

end MetricFs

namespace StatsFs

theorem accum_value_sum (val : StatsFsValue) (agg : AggValue) (v : Nat) :
    (accum_value val agg v).sum = (agg.sum + v) % 2 ^ 64 := by
  unfold accum_value
  split <;> split <;> rfl

theorem accum_value_count (val : StatsFsValue) (agg : AggValue) (v : Nat) :
    (accum_value val agg v).count = (agg.count + 1) % 2 ^ 32 := by
  unfold accum_value
  split <;> split <;> rfl

theorem contribs_of_binds_nil (mem : Mem) (val : StatsFsValue) (ref : Nat) :
    contribs_of_binds mem val ref [] = [] := rfl

theorem contribs_of_binds_cons (mem : Mem) (val : StatsFsValue) (ref : Nat)
    (b : ValueSource) (rest : List ValueSource) :
    contribs_of_binds mem val ref (b :: rest) =
      (match b.base_addr with
       | Option.none => contribs_of_binds mem val ref rest
       | some base =>
         if b.values = ref then
           get_simple_value mem base val :: contribs_of_binds mem val ref rest
         else contribs_of_binds mem val ref rest) := by
  cases h : b.base_addr with
  | none =>
    simp only [contribs_of_binds, List.filterMap_cons, h]
  | some base =>
    by_cases hv : b.values = ref <;>
      simp only [contribs_of_binds, List.filterMap_cons, h, hv, if_true, if_false]

theorem contribs_of_binds_append (mem : Mem) (val : StatsFsValue) (ref : Nat)
    (l₁ l₂ : List ValueSource) :
    contribs_of_binds mem val ref (l₁ ++ l₂) =
      contribs_of_binds mem val ref l₁ ++ contribs_of_binds mem val ref l₂ := by
  simp [contribs_of_binds]

theorem search_all_simple_values_sum (mem : Mem) (ref : Nat)
    (val : StatsFsValue) :
    ∀ (binds : List ValueSource) (agg : AggValue), agg.sum < 2 ^ 64 →
      (search_all_simple_values mem ref val binds agg).sum =
        (agg.sum + (contribs_of_binds mem val ref binds).sum) % 2 ^ 64
  | [], agg, h => by
    simp only [search_all_simple_values, contribs_of_binds_nil,
      List.sum_nil, Nat.add_zero]
    omega
  | b :: rest, agg, h => by
    rw [contribs_of_binds_cons]
    cases hb : b.base_addr with
    | none =>
      simp only [search_all_simple_values, hb]
      exact search_all_simple_values_sum mem ref val rest agg h
    | some base =>
      by_cases hv : b.values = ref
      · simp only [search_all_simple_values, hb, hv, if_true]
        rw [search_all_simple_values_sum mem ref val rest _
          (by rw [accum_value_sum]; exact Nat.mod_lt _ (by norm_num))]
        rw [accum_value_sum, Nat.mod_add_mod, List.sum_cons]
        ring_nf
      · simp only [search_all_simple_values, hb, hv, if_false]
        rw [search_all_simple_values_sum mem ref val rest agg h]

theorem search_all_simple_values_count (mem : Mem) (ref : Nat)
    (val : StatsFsValue) :
    ∀ (binds : List ValueSource) (agg : AggValue), agg.count < 2 ^ 32 →
      (search_all_simple_values mem ref val binds agg).count =
        (agg.count + (contribs_of_binds mem val ref binds).length) % 2 ^ 32
  | [], agg, h => by
    simp only [search_all_simple_values, contribs_of_binds_nil,
      List.length_nil, Nat.add_zero]
    omega
  | b :: rest, agg, h => by
    rw [contribs_of_binds_cons]
    cases hb : b.base_addr with
    | none =>
      simp only [search_all_simple_values, hb]
      exact search_all_simple_values_count mem ref val rest agg h
    | some base =>
      by_cases hv : b.values = ref
      · simp only [search_all_simple_values, hb, hv, if_true]
        rw [search_all_simple_values_count mem ref val rest _
          (by rw [accum_value_count]; exact Nat.mod_lt _ (by norm_num))]
        rw [accum_value_count, Nat.mod_add_mod, List.length_cons]
        ring_nf
      · simp only [search_all_simple_values, hb, hv, if_false]
        rw [search_all_simple_values_count mem ref val rest agg h]

theorem search_all_simple_values_no_contrib (mem : Mem) (ref : Nat)
    (val : StatsFsValue) :
    ∀ (binds : List ValueSource) (agg : AggValue),
      contribs_of_binds mem val ref binds = [] →
      search_all_simple_values mem ref val binds agg = agg
  | [], _, _ => rfl
  | b :: rest, agg, h => by
    rw [contribs_of_binds_cons] at h
    cases hb : b.base_addr with
    | none =>
      simp only [hb] at h
      simp only [search_all_simple_values, hb]
      exact search_all_simple_values_no_contrib mem ref val rest agg h
    | some base =>
      by_cases hv : b.values = ref
      · simp only [hb, hv, if_true] at h
        exact absurd h (List.cons_ne_nil _ _)
      · simp only [hb, hv, if_false] at h
        simp only [search_all_simple_values, hb, hv, if_false]
        exact search_all_simple_values_no_contrib mem ref val rest agg h

theorem contrib_values_mk (mem : Mem) (val : StatsFsValue) (ref : Nat)
    (binds : List ValueSource) (lbls : List (String × String)) (subs : Forest) :
    contrib_values mem val ref (.mk binds lbls subs) =
      contribs_of_binds mem val ref binds ++
        contribs_of_binds mem val ref (bindings_of_forest subs) := by
  rw [contrib_values, bindings_of_tree, contribs_of_binds_append]

mutual
theorem do_recursive_aggregation_sum (mem : Mem) (ref : Nat)
    (val : StatsFsValue) :
    ∀ (s : Source) (agg : AggValue), agg.sum < 2 ^ 64 →
      (do_recursive_aggregation mem ref val s agg).sum =
        (agg.sum + (contrib_values mem val ref s).sum) % 2 ^ 64
  | .mk binds lbls subs, agg, h => by
    simp only [do_recursive_aggregation, contrib_values_mk, List.sum_append]
    rw [aggregate_forest_sum mem ref val subs _
      (by rw [search_all_simple_values_sum mem ref val binds agg h]
          exact Nat.mod_lt _ (by norm_num))]
    rw [search_all_simple_values_sum mem ref val binds agg h, Nat.mod_add_mod]
    ring_nf
theorem aggregate_forest_sum (mem : Mem) (ref : Nat) (val : StatsFsValue) :
    ∀ (f : Forest) (agg : AggValue), agg.sum < 2 ^ 64 →
      (aggregate_forest mem ref val f agg).sum =
        (agg.sum +
          (contribs_of_binds mem val ref (bindings_of_forest f)).sum) % 2 ^ 64
  | .nil, agg, h => by
    simp only [aggregate_forest, bindings_of_forest, contribs_of_binds_nil,
      List.sum_nil, Nat.add_zero]
    omega
  | .cons s rest, agg, h => by
    simp only [aggregate_forest, bindings_of_forest, contribs_of_binds_append,
      List.sum_append]
    rw [aggregate_forest_sum mem ref val rest _
      (by rw [do_recursive_aggregation_sum mem ref val s agg h]
          exact Nat.mod_lt _ (by norm_num))]
    rw [do_recursive_aggregation_sum mem ref val s agg h, Nat.mod_add_mod,
      contrib_values]
    ring_nf
end

mutual
theorem do_recursive_aggregation_count (mem : Mem) (ref : Nat)
    (val : StatsFsValue) :
    ∀ (s : Source) (agg : AggValue), agg.count < 2 ^ 32 →
      (do_recursive_aggregation mem ref val s agg).count =
        (agg.count + (contrib_values mem val ref s).length) % 2 ^ 32
  | .mk binds lbls subs, agg, h => by
    simp only [do_recursive_aggregation, contrib_values_mk, List.length_append]
    rw [aggregate_forest_count mem ref val subs _
      (by rw [search_all_simple_values_count mem ref val binds agg h]
          exact Nat.mod_lt _ (by norm_num))]
    rw [search_all_simple_values_count mem ref val binds agg h, Nat.mod_add_mod]
    ring_nf
theorem aggregate_forest_count (mem : Mem) (ref : Nat) (val : StatsFsValue) :
    ∀ (f : Forest) (agg : AggValue), agg.count < 2 ^ 32 →
      (aggregate_forest mem ref val f agg).count =
        (agg.count +
          (contribs_of_binds mem val ref (bindings_of_forest f)).length) % 2 ^ 32
  | .nil, agg, h => by
    simp only [aggregate_forest, bindings_of_forest, contribs_of_binds_nil,
      List.length_nil, Nat.add_zero]
    omega
  | .cons s rest, agg, h => by
    simp only [aggregate_forest, bindings_of_forest, contribs_of_binds_append,
      List.length_append]
    rw [aggregate_forest_count mem ref val rest _
      (by rw [do_recursive_aggregation_count mem ref val s agg h]
          exact Nat.mod_lt _ (by norm_num))]
    rw [do_recursive_aggregation_count mem ref val s agg h, Nat.mod_add_mod,
      contrib_values]
    ring_nf
end

mutual
theorem do_recursive_aggregation_no_contrib (mem : Mem) (ref : Nat)
    (val : StatsFsValue) :
    ∀ (s : Source) (agg : AggValue), contrib_values mem val ref s = [] →
      do_recursive_aggregation mem ref val s agg = agg
  | .mk binds lbls subs, agg, h => by
    rw [contrib_values_mk, List.append_eq_nil] at h
    simp only [do_recursive_aggregation]
    rw [search_all_simple_values_no_contrib mem ref val binds agg h.1]
    exact aggregate_forest_no_contrib mem ref val subs agg h.2
theorem aggregate_forest_no_contrib (mem : Mem) (ref : Nat)
    (val : StatsFsValue) :
    ∀ (f : Forest) (agg : AggValue),
      contribs_of_binds mem val ref (bindings_of_forest f) = [] →
      aggregate_forest mem ref val f agg = agg
  | .nil, agg, _ => rfl
  | .cons s rest, agg, h => by
    rw [bindings_of_forest, contribs_of_binds_append, List.append_eq_nil] at h
    simp only [aggregate_forest]
    rw [do_recursive_aggregation_no_contrib mem ref val s agg h.1]
    exact aggregate_forest_no_contrib mem ref val rest agg h.2
end

theorem init_aggregate_value_sum (val : StatsFsValue) :
    (init_aggregate_value val).sum = 0 := by
  unfold init_aggregate_value
  split <;> rfl

theorem init_aggregate_value_count (val : StatsFsValue) :
    (init_aggregate_value val).count = 0 := by
  unfold init_aggregate_value
  split <;> rfl

theorem store_final_value_sum (agg : AggValue) (val : StatsFsValue)
    (h : val.aggr_kind = .sum) : store_final_value agg val = agg.sum := by
  cases hsig : isValSigned val.type <;> simp [store_final_value, h, hsig]

theorem store_final_value_none (agg : AggValue) (val : StatsFsValue)
    (h : val.aggr_kind = .none) : store_final_value agg val = 0 := by
  cases hsig : isValSigned val.type <;> simp [store_final_value, h, hsig]

theorem store_final_value_min (agg : AggValue) (val : StatsFsValue)
    (h : val.aggr_kind = .min) : store_final_value agg val = agg.min := by
  cases hsig : isValSigned val.type <;> simp [store_final_value, h, hsig]

theorem store_final_value_max (agg : AggValue) (val : StatsFsValue)
    (h : val.aggr_kind = .max) : store_final_value agg val = agg.max := by
  cases hsig : isValSigned val.type <;> simp [store_final_value, h, hsig]

theorem store_final_value_avg (agg : AggValue) (val : StatsFsValue)
    (h : val.aggr_kind = .avg) :
    store_final_value agg val =
      (if isValSigned val.type then
        (if agg.count ≠ 0 then
          ((Int.tdiv (toS64 agg.sum) (agg.count : Int)) % (2 ^ 64 : Int)).toNat
         else 0)
       else (if agg.count ≠ 0 then agg.sum / agg.count else 0)) := by
  cases hsig : isValSigned val.type <;> simp [store_final_value, h, hsig]

theorem search_value_in_source_mem (arrays : Arrays) :
    ∀ (binds : List ValueSource) (arg : ValueRef) (b : ValueSource)
      (v : StatsFsValue),
      search_value_in_source arrays binds arg = some (b, v) → b ∈ binds
  | [], _, _, _, h => by simp [search_value_in_source] at h
  | x :: rest, arg, b, v, h => by
    rw [search_value_in_source] at h
    cases hf : find_value arrays x.values arg with
    | none =>
      rw [hf] at h
      exact List.mem_cons_of_mem _ (search_value_in_source_mem arrays rest arg b v h)
    | some entry =>
      rw [hf] at h
      obtain ⟨rfl, -⟩ := Prod.mk.injEq .. ▸ Option.some.injEq .. ▸ h
      exact List.mem_cons_self _ _

/-- C1 (corrected): once the descriptor is located, `get_value` performs a
direct in-memory read exactly when the owning binding has a non-NULL base —
the descriptor's `aggr_kind` is not consulted by the dispatch — and in exactly
the NULL-base case the result is computed by initialising the accumulator and
walking the subtree rooted at the source. -/
theorem c1_get_value_dispatch (arrays : Arrays) (mem : Mem) (source : Source)
    (arg : ValueRef) (src_entry : ValueSource) (found : StatsFsValue)
    (hfound : search_value_in_source arrays source.bindings arg =
      some (src_entry, found)) :
    (∀ base, src_entry.base_addr = some base →
      stats_fs_source_get_value_locked arrays mem source arg =
        some (get_simple_value mem base found)) ∧
    (src_entry.base_addr = Option.none →
      stats_fs_source_get_value_locked arrays mem source arg =
        some (store_final_value
          (do_recursive_aggregation mem src_entry.values found source
            (init_aggregate_value found)) found)) := by
  constructor
  · intro base hbase
    rw [stats_fs_source_get_value_locked, hfound]
    dsimp only
    rw [hbase]
  · intro hbase
    rw [stats_fs_source_get_value_locked, hfound]
    dsimp only
    rw [hbase]

/-- C1, counterexample: a SUM descriptor owned by a binding with non-NULL base
(array 1 at base 100, with a second binding of the same array at base 200) is
read directly — the result is the single field at base 100 (5), not the
accumulator walk over the subtree (12), although its `aggr_kind` is not NONE. -/
theorem c1_counterexample :
    exSumVal.aggr_kind = .sum ∧ exSumVal.aggr_kind ≠ .none ∧
    stats_fs_source_get_value_locked exArrays exMem c1src ⟨1, 0⟩ = some 5 ∧
    store_final_value
      (do_recursive_aggregation exMem 1 exSumVal c1src
        (init_aggregate_value exSumVal)) exSumVal = 12 ∧
    (5 : Nat) ≠ 12 := by
  refine ⟨rfl, by decide, by decide, by decide, by decide⟩

/-- C1, witness: on the concrete source `c1src` the located binding has base
100, and the theorem yields the direct read. -/
theorem c1_get_value_dispatch_witness :
    stats_fs_source_get_value_locked exArrays exMem c1src ⟨1, 0⟩ =
      some (get_simple_value exMem 100 exSumVal) :=
  (c1_get_value_dispatch exArrays exMem c1src ⟨1, 0⟩ ⟨some 100, 1⟩ exSumVal
    (by decide)).1 100 rfl

/-- C2 (corrected): for an aggregate descriptor with kind SUM whose owning
binding is a pure aggregate binding (base NULL), `get_value` returns exactly
the u64 sum of the same field over all bindings in the subtree whose base is
non-NULL and whose value-array pointer is identical to the aggregate's
reference array; bindings with a different array pointer contribute nothing. -/
theorem c2_subtree_sum (arrays : Arrays) (mem : Mem) (source : Source)
    (arg : ValueRef) (src_entry : ValueSource) (found : StatsFsValue)
    (hfound : search_value_in_source arrays source.bindings arg =
      some (src_entry, found))
    (hbase : src_entry.base_addr = Option.none)
    (hkind : found.aggr_kind = .sum) :
    stats_fs_source_get_value_locked arrays mem source arg =
      some ((contrib_values mem found src_entry.values source).sum % 2 ^ 64) := by
  rw [stats_fs_source_get_value_locked, hfound]
  dsimp only
  rw [hbase]
  rw [store_final_value_sum _ _ hkind]
  rw [do_recursive_aggregation_sum mem src_entry.values found source
    (init_aggregate_value found)
    (by rw [init_aggregate_value_sum]; norm_num)]
  rw [init_aggregate_value_sum, Nat.zero_add]

/-- C2, counterexample: the same SUM descriptor owned by a binding with
non-NULL base (array 1 at base 300, second binding at base 400) makes
`get_value` return the direct read 3, not the subtree sum 7 over the matching
bindings. -/
theorem c2_counterexample :
    exSumVal.aggr_kind = .sum ∧
    stats_fs_source_get_value_locked exArrays exMem c2src ⟨1, 0⟩ = some 3 ∧
    (contrib_values exMem exSumVal 1 c2src).sum % 2 ^ 64 = 7 ∧
    (3 : Nat) ≠ 7 := by
  refine ⟨rfl, by decide, by decide, by decide⟩

/-- C2, witness: on `c2wit_src` the aggregate binding has base NULL and the
theorem yields the subtree sum over the single contributing binding. -/
theorem c2_subtree_sum_witness :
    stats_fs_source_get_value_locked exArrays exMem c2wit_src ⟨1, 0⟩ =
      some ((contrib_values exMem exSumVal 1 c2wit_src).sum % 2 ^ 64) :=
  c2_subtree_sum exArrays exMem c2wit_src ⟨1, 0⟩ ⟨Option.none, 1⟩ exSumVal
    (by decide) rfl rfl

/-- C5 (confirmed): a MIN (resp. MAX) aggregate whose subtree walk finds no
contributing binding returns success with the signedness-chosen sentinel —
S64_MAX / U64_MAX for MIN, S64_MIN / 0 for MAX (as u64 bit patterns) — not
NotFound. -/
theorem c5_minmax_sentinel (arrays : Arrays) (mem : Mem) (source : Source)
    (arg : ValueRef) (src_entry : ValueSource) (found : StatsFsValue)
    (hfound : search_value_in_source arrays source.bindings arg =
      some (src_entry, found))
    (hbase : src_entry.base_addr = Option.none)
    (hempty : contrib_values mem found src_entry.values source = [])
    (hkind : found.aggr_kind = .min ∨ found.aggr_kind = .max) :
    stats_fs_source_get_value_locked arrays mem source arg =
      some (if found.aggr_kind = .min then
              (if isValSigned found.type then 2 ^ 63 - 1 else 2 ^ 64 - 1)
            else
              (if isValSigned found.type then 2 ^ 63 else 0)) := by
  rw [stats_fs_source_get_value_locked, hfound]
  dsimp only
  rw [hbase]
  rw [do_recursive_aggregation_no_contrib mem src_entry.values found source _
    hempty]
  rcases hkind with h | h
  · rw [store_final_value_min _ _ h, h]
    cases hsig : isValSigned found.type <;>
      simp [init_aggregate_value, hsig]
  · rw [store_final_value_max _ _ h, h]
    cases hsig : isValSigned found.type <;>
      simp [init_aggregate_value, hsig]

/-- C5, witness: a lone pure aggregate binding of the signed s32 MIN array 5
yields the S64_MAX sentinel. -/
theorem c5_minmax_sentinel_witness :
    stats_fs_source_get_value_locked exArrays exMem c5wit_src ⟨5, 0⟩ =
      some (if ({ name := "m", offset := 0, type := .s32, aggr_kind := .min } :
              StatsFsValue).aggr_kind = .min then
              (if isValSigned StatType.s32 then 2 ^ 63 - 1 else 2 ^ 64 - 1)
            else
              (if isValSigned StatType.s32 then 2 ^ 63 else 0)) :=
  c5_minmax_sentinel exArrays exMem c5wit_src ⟨5, 0⟩ ⟨Option.none, 5⟩
    { name := "m", offset := 0, type := .s32, aggr_kind := .min }
    (by decide) rfl (by decide) (Or.inl rfl)

/-- C6 (confirmed): an AVG aggregate returns the accumulated sum divided by
the contributor count with integer division, and 0 when the count is 0; for a
signed descriptor the u64 sum is divided as a signed 64-bit value (C truncating
division) by the 32-bit count. -/
theorem c6_avg (arrays : Arrays) (mem : Mem) (source : Source)
    (arg : ValueRef) (src_entry : ValueSource) (found : StatsFsValue)
    (hfound : search_value_in_source arrays source.bindings arg =
      some (src_entry, found))
    (hbase : src_entry.base_addr = Option.none)
    (hkind : found.aggr_kind = .avg)
    (hlen : (contrib_values mem found src_entry.values source).length < 2 ^ 32) :
    stats_fs_source_get_value_locked arrays mem source arg =
      some
        (if (contrib_values mem found src_entry.values source).length = 0 then 0
         else if isValSigned found.type then
           ((Int.tdiv
               (toS64 ((contrib_values mem found src_entry.values source).sum % 2 ^ 64))
               (((contrib_values mem found src_entry.values source).length : Nat) : Int)) %
             (2 ^ 64 : Int)).toNat
         else
           ((contrib_values mem found src_entry.values source).sum % 2 ^ 64) /
             (contrib_values mem found src_entry.values source).length) := by
  rw [stats_fs_source_get_value_locked, hfound]
  dsimp only
  rw [hbase]
  rw [store_final_value_avg _ _ hkind]
  have hcount := do_recursive_aggregation_count mem src_entry.values found source
    (init_aggregate_value found) (by rw [init_aggregate_value_count]; norm_num)
  rw [init_aggregate_value_count, Nat.zero_add, Nat.mod_eq_of_lt hlen] at hcount
  have hsum := do_recursive_aggregation_sum mem src_entry.values found source
    (init_aggregate_value found) (by rw [init_aggregate_value_sum]; norm_num)
  rw [init_aggregate_value_sum, Nat.zero_add] at hsum
  rw [hcount, hsum]
  by_cases h0 : (contrib_values mem found src_entry.values source).length = 0 <;>
    cases hsig : isValSigned found.type <;>
      simp [h0, hsig]

/-- C6, witness: the u8 AVG array 6 with two contributors (127 and 255)
yields the divided sum. -/
theorem c6_avg_witness :
    stats_fs_source_get_value_locked exArrays exMem c6wit_src ⟨6, 0⟩ =
      some
        (if (contrib_values exMem
              { name := "a", offset := 0, type := .u8, aggr_kind := .avg }
              6 c6wit_src).length = 0 then 0
         else if isValSigned StatType.u8 then
           ((Int.tdiv
               (toS64 ((contrib_values exMem
                 { name := "a", offset := 0, type := .u8, aggr_kind := .avg }
                 6 c6wit_src).sum % 2 ^ 64))
               (((contrib_values exMem
                 { name := "a", offset := 0, type := .u8, aggr_kind := .avg }
                 6 c6wit_src).length : Nat) : Int)) % (2 ^ 64 : Int)).toNat
         else
           ((contrib_values exMem
              { name := "a", offset := 0, type := .u8, aggr_kind := .avg }
              6 c6wit_src).sum % 2 ^ 64) /
             (contrib_values exMem
              { name := "a", offset := 0, type := .u8, aggr_kind := .avg }
              6 c6wit_src).length) :=
  c6_avg exArrays exMem c6wit_src ⟨6, 0⟩ ⟨Option.none, 6⟩
    { name := "a", offset := 0, type := .u8, aggr_kind := .avg }
    (by decide) rfl rfl (by decide)

/-- C3 (confirmed): adding the exact same (value array, base) pair twice
returns -EEXIST on the second call; the first binding stays at the head of the
list and the failed call returns the source unchanged. -/
theorem c3_add_values_duplicate (source s' : Source) (stat : Nat)
    (ptr : Option Nat)
    (h : stats_fs_source_add_values source stat ptr = (0, s')) :
    stats_fs_source_add_values s' stat ptr = (-17, s') ∧
    s'.bindings = { base_addr := ptr, values := stat } :: source.bindings := by
  cases source with
  | mk binds lbls subs =>
    rw [stats_fs_source_add_values] at h
    split at h
    · exact absurd (congrArg Prod.fst h) (by norm_num)
    · injection h with h1 h2
      subst h2
      constructor
      · rw [stats_fs_source_add_values]
        rw [if_pos (by simp [List.any_cons])]
      · rfl

/-- C3, witness: adding array 2 at base 100 to a fresh source succeeds, the
second identical call fails with -EEXIST and leaves the binding list alone. -/
theorem c3_add_values_duplicate_witness :
    stats_fs_source_add_values c3wit_src 2 (some 100) = (-17, c3wit_src) ∧
    c3wit_src.bindings =
      { base_addr := some 100, values := 2 } ::
        (stats_fs_source_create ("p") ("k")).bindings :=
  c3_add_values_duplicate (stats_fs_source_create ("p") ("k")) c3wit_src 2
    (some 100) rfl

theorem search_all_simple_values_revoked (mem : Mem) (ref : Nat)
    (val : StatsFsValue) :
    ∀ (binds : List ValueSource) (agg : AggValue),
      search_all_simple_values mem ref val
        (binds.map (fun b => { b with base_addr := Option.none })) agg = agg
  | [], _ => rfl
  | b :: rest, agg => by
    simp only [List.map_cons, search_all_simple_values]
    exact search_all_simple_values_revoked mem ref val rest agg

theorem do_recursive_aggregation_revoke (mem : Mem) (ref : Nat)
    (val : StatsFsValue) (s : Source) (agg : AggValue) :
    do_recursive_aggregation mem ref val (stats_fs_source_revoke s) agg =
      do_recursive_aggregation mem ref val (with_no_bindings s) agg := by
  cases s with
  | mk binds lbls subs =>
    simp only [stats_fs_source_revoke, with_no_bindings,
      do_recursive_aggregation]
    rw [search_all_simple_values_revoked]
    rfl

mutual
theorem replace_in_tree_agg_congr (mem : Mem) (ref : Nat) (val : StatsFsValue)
    (s1 s2 : Source)
    (hs : ∀ agg, do_recursive_aggregation mem ref val s1 agg =
      do_recursive_aggregation mem ref val s2 agg) :
    ∀ (T : Source) (path : List Nat) (agg : AggValue),
      do_recursive_aggregation mem ref val (replace_in_tree T path s1) agg =
        do_recursive_aggregation mem ref val (replace_in_tree T path s2) agg
  | T, [], agg => by
    simp only [replace_in_tree]
    exact hs agg
  | .mk b l f, i :: p, agg => by
    simp only [replace_in_tree, do_recursive_aggregation]
    exact replace_in_forest_agg_congr mem ref val s1 s2 hs f i p _
theorem replace_in_forest_agg_congr (mem : Mem) (ref : Nat)
    (val : StatsFsValue) (s1 s2 : Source)
    (hs : ∀ agg, do_recursive_aggregation mem ref val s1 agg =
      do_recursive_aggregation mem ref val s2 agg) :
    ∀ (f : Forest) (i : Nat) (p : List Nat) (agg : AggValue),
      aggregate_forest mem ref val (replace_in_forest f i p s1) agg =
        aggregate_forest mem ref val (replace_in_forest f i p s2) agg
  | .nil, _, _, _ => rfl
  | .cons s rest, 0, p, agg => by
    simp only [replace_in_forest, aggregate_forest]
    rw [replace_in_tree_agg_congr mem ref val s1 s2 hs s p agg]
  | .cons s rest, i + 1, p, agg => by
    simp only [replace_in_forest, aggregate_forest]
    exact replace_in_forest_agg_congr mem ref val s1 s2 hs rest i p _
end

/-- C4 (confirmed): revoke sets every binding's base to NULL on this source
only (subordinates untouched); afterwards `get_value` on any of this source's
simple (aggr_kind NONE) descriptors succeeds with value 0, and aggregation
over any tree in which the revoked source sits at an arbitrary position gives
the same result as if the source had no bindings at all — its contributions
vanish from every ancestor's aggregate. -/
theorem c4_revoke (arrays : Arrays) (mem : Mem) (s : Source) (arg : ValueRef)
    (src_entry : ValueSource) (found : StatsFsValue)
    (hfound : search_value_in_source arrays
      (stats_fs_source_revoke s).bindings arg = some (src_entry, found))
    (hkind : found.aggr_kind = .none) :
    (∀ b ∈ (stats_fs_source_revoke s).bindings, b.base_addr = Option.none) ∧
    (stats_fs_source_revoke s).subs = s.subs ∧
    stats_fs_source_get_value_locked arrays mem (stats_fs_source_revoke s)
      arg = some 0 ∧
    (∀ (T : Source) (path : List Nat) (ref : Nat) (val : StatsFsValue)
        (agg : AggValue),
      do_recursive_aggregation mem ref val
          (replace_in_tree T path (stats_fs_source_revoke s)) agg =
        do_recursive_aggregation mem ref val
          (replace_in_tree T path (with_no_bindings s)) agg) := by
  have hall : ∀ b ∈ (stats_fs_source_revoke s).bindings,
      b.base_addr = Option.none := by
    cases s with
    | mk binds lbls subs =>
      intro b hb
      simp only [stats_fs_source_revoke, Source.bindings] at hb
      obtain ⟨a, -, rfl⟩ := List.mem_map.mp hb
      rfl
  refine ⟨hall, by cases s; rfl, ?_, ?_⟩
  · rw [stats_fs_source_get_value_locked, hfound]
    dsimp only
    rw [hall src_entry
      (search_value_in_source_mem arrays _ arg src_entry found hfound)]
    rw [store_final_value_none _ _ hkind]
  · intro T path ref val agg
    exact replace_in_tree_agg_congr mem ref val _ _
      (fun a => do_recursive_aggregation_revoke mem ref val s a) T path agg

/-- C4, witness: after revoking the source with one simple u64 binding,
reading its NONE descriptor succeeds with value 0. -/
theorem c4_revoke_witness :
    stats_fs_source_get_value_locked exArrays exMem
      (stats_fs_source_revoke c4wit_src) ⟨2, 0⟩ = some 0 :=
  (c4_revoke exArrays exMem c4wit_src ⟨2, 0⟩ ⟨Option.none, 2⟩
    { name := "x", offset := 0, type := .u64, aggr_kind := .none }
    (by decide) rfl).2.2.1

theorem find_by_name_idx_spec :
    ∀ (l : List StatsFsValue) (n : String) (i : Nat),
      find_by_name_idx l n = some i →
      (∃ v, l.get? i = some v ∧ v.name = n) ∧
      (∀ j, j < i → ∃ v, l.get? j = some v ∧ v.name ≠ n)
  | [], n, i, h => by simp [find_by_name_idx] at h
  | v :: rest, n, i, h => by
    rw [find_by_name_idx] at h
    by_cases hv : v.name = n
    · rw [if_pos hv] at h
      obtain rfl : (0 : Nat) = i := Option.some.inj h
      exact ⟨⟨v, rfl, hv⟩, fun j hj => absurd hj (Nat.not_lt_zero j)⟩
    · rw [if_neg hv] at h
      cases hrest : find_by_name_idx rest n with
      | none => rw [hrest] at h; simp at h
      | some k =>
        rw [hrest] at h
        simp only [Option.map_some'] at h
        obtain rfl : k + 1 = i := Option.some.inj h
        obtain ⟨⟨w, hw, hwn⟩, hmin⟩ := find_by_name_idx_spec rest n k hrest
        refine ⟨⟨w, hw, hwn⟩, ?_⟩
        intro j hj
        cases j with
        | zero => exact ⟨v, rfl, hv⟩
        | succ j' => exact hmin j' (Nat.lt_of_succ_lt_succ hj)

/-- C7 (corrected): by-name lookup takes the first match in binding traversal
order; since the kernel list_add prepends, that is the binding added LAST, not
the one added first. Within a single value array the earlier array element
still wins. -/
theorem c7_lookup_order (arrays : Arrays) (source s' : Source) (stat : Nat)
    (ptr : Option Nat) (n : String) (i : Nat)
    (hadd : stats_fs_source_add_values source stat ptr = (0, s'))
    (hname : find_by_name_idx (arrays stat) n = some i) :
    search_in_source_by_name arrays s'.bindings n = some ⟨stat, i⟩ ∧
    (∀ j, j < i → ∃ v, (arrays stat).get? j = some v ∧ v.name ≠ n) := by
  cases source with
  | mk binds lbls subs =>
    rw [stats_fs_source_add_values] at hadd
    split at hadd
    · exact absurd (congrArg Prod.fst hadd) (by norm_num)
    · injection hadd with h1 h2
      subst h2
      refine ⟨?_, (find_by_name_idx_spec _ _ _ hname).2⟩
      rw [Source.bindings, search_in_source_by_name]
      dsimp only
      rw [hname]

/-- C7, counterexample: arrays 2 (at base 100, field value 5) and 7 (at base
200, field value 7) both carry a descriptor named "x"; array 2 was added
first, yet by-name lookup returns the value of the binding added second (7),
not that of the binding added first (5). -/
theorem c7_counterexample :
    stats_fs_source_get_value_by_name exArrays exMem c7src ("x") = some 7 ∧
    stats_fs_source_get_value_locked exArrays exMem c7src ⟨2, 0⟩ = some 5 ∧
    (some 7 : Option Nat) ≠ some 5 := by
  refine ⟨by decide, by decide, by decide⟩

/-- C7, witness: after the second add, the name "x" resolves into the
just-added array 7 at index 0. -/
theorem c7_lookup_order_witness :
    search_in_source_by_name exArrays c7src.bindings ("x") = some ⟨7, 0⟩ :=
  (c7_lookup_order exArrays
    (stats_fs_source_add_values (stats_fs_source_create ("p") ("k")) 2
      (some 100)).2
    c7src 7 (some 200) ("x") 0 rfl (by decide)).1

theorem copy_labels_eq :
    ∀ (src dst : List (String × String)),
      copy_labels src dst = src.reverse ++ dst
  | [], dst => by simp [copy_labels]
  | l :: rest, dst => by
    rw [copy_labels, copy_labels_eq rest (l :: dst)]
    simp

theorem chain_link_labels_length :
    ∀ (l : List (String × String)) (root : Source),
      (chain_link root l).labels.length = root.labels.length + l.length
  | [], root => by simp [chain_link]
  | (n, k) :: rest, root => by
    rw [chain_link, chain_link_labels_length rest]
    cases root with
    | mk rb rl rf =>
      simp only [stats_fs_source_add_subordinate, stats_fs_source_create,
        Source.labels, copy_labels_eq, List.length_append,
        List.length_reverse, List.length_cons]
      simp
      omega

/-- C8 (corrected): label 0 at creation is the pair (label_key, name); each
link copies the parent's entire label list onto the child by prepending it in
reverse, so after linking the child's own creation label is the LAST entry and
a depth-d node of a chain built from the root down has exactly d+1 labels —
but the entries are not in top-down parent-first order (the claim's order
fails from depth 2 on). -/
theorem c8_labels :
    (∀ n k, (stats_fs_source_create n k).labels = [(k, n)]) ∧
    (∀ p c, (stats_fs_source_add_subordinate p c).2.labels =
      p.labels.reverse ++ c.labels) ∧
    (∀ p n k,
      ((stats_fs_source_add_subordinate p
        (stats_fs_source_create n k)).2.labels).getLast? = some (k, n)) ∧
    (∀ n₀ k₀ l,
      (chain_link (stats_fs_source_create n₀ k₀) l).labels.length =
        l.length + 1) := by
  have hlink : ∀ p c : Source,
      (stats_fs_source_add_subordinate p c).2.labels =
        p.labels.reverse ++ c.labels := by
    intro p c
    cases p with
    | mk pb pl ps =>
      cases c with
      | mk cb cl cs =>
        simp only [stats_fs_source_add_subordinate, Source.labels]
        exact copy_labels_eq pl cl
  refine ⟨fun n k => rfl, hlink, ?_, ?_⟩
  · intro p n k
    rw [hlink p (stats_fs_source_create n k)]
    show (p.labels.reverse ++ [(k, n)]).getLast? = some (k, n)
    rw [List.getLast?_concat]
  · intro n₀ k₀ l
    rw [chain_link_labels_length l (stats_fs_source_create n₀ k₀)]
    simp [stats_fs_source_create, Source.labels]
    omega

/-- C8, counterexample: the kunit test_labels chain (parent → child →
grandchild) produces the grandchild label list [child, parent, grandchild] —
three entries, but not the claimed top-down parent-first order
[parent, child, grandchild]. -/
theorem c8_counterexample :
    c8_link2.2.labels =
      [("child_dir", "child"), ("parent_dir", "parent"),
        ("grandchild_dir", "grandchild")] ∧
    c8_link2.2.labels ≠
      [("parent_dir", "parent"), ("child_dir", "child"),
        ("grandchild_dir", "grandchild")] ∧
    c8_link2.2.labels.length = 3 := by
  refine ⟨by decide, by decide, by decide⟩

theorem clear_simple_value_frame (mem : Mem) (base : Nat) (val : StatsFsValue)
    (x : Nat)
    (hx : ¬(base + val.offset ≤ x ∧
      x < base + val.offset + typeSize val.type)) :
    clear_simple_value mem base val x = mem x := by
  have h : ∀ w, ¬(base + val.offset ≤ x ∧ x < base + val.offset + w) →
      writeZeroBytes mem (base + val.offset) w x = mem x := by
    intro w hw
    simp only [writeZeroBytes]
    rw [if_neg hw]
  cases htype : val.type <;>
    (simp only [typeSize, htype] at hx
     simp only [clear_simple_value, htype]
     exact h _ hx)

theorem readBytes_zero_of (mem : Mem) :
    ∀ (n a : Nat), (∀ x, a ≤ x ∧ x < a + n → mem x = 0) →
      readBytes mem a n = 0
  | 0, _, _ => rfl
  | n + 1, a, h => by
    rw [readBytes, h a ⟨Nat.le_refl a, by omega⟩,
      readBytes_zero_of mem n (a + 1) (fun x hx => h x ⟨by omega, by omega⟩)]

theorem signExtend_zero (n : Nat) : signExtend n 0 = 0 := by
  unfold signExtend
  rw [if_pos (pow_pos (by norm_num) _)]

theorem get_simple_value_after_clear (mem : Mem) (base : Nat)
    (val : StatsFsValue) :
    get_simple_value (clear_simple_value mem base val) base val = 0 := by
  have h : ∀ w, readBytes (writeZeroBytes mem (base + val.offset) w)
      (base + val.offset) w = 0 := by
    intro w
    refine readBytes_zero_of _ w (base + val.offset) (fun x hx => ?_)
    simp only [writeZeroBytes]
    rw [if_pos hx]
  cases htype : val.type <;>
    simp only [get_simple_value, clear_simple_value, htype, h, signExtend_zero]

theorem set_all_simple_values_frame (ref : Nat) (val : StatsFsValue) :
    ∀ (binds : List ValueSource) (mem : Mem) (x : Nat),
      set_all_simple_values ref val binds mem x ≠ mem x →
      ∃ b ∈ binds, ∃ base, b.base_addr = some base ∧ b.values = ref ∧
        base + val.offset ≤ x ∧ x < base + val.offset + typeSize val.type
  | [], _, _, h => absurd rfl h
  | b :: rest, mem, x, h => by
    cases hb : b.base_addr with
    | none =>
      simp only [set_all_simple_values, hb] at h
      obtain ⟨b', hb', hw⟩ := set_all_simple_values_frame ref val rest mem x h
      exact ⟨b', List.mem_cons_of_mem _ hb', hw⟩
    | some base =>
      by_cases hv : b.values = ref
      · simp only [set_all_simple_values, hb, hv, if_true] at h
        by_cases hrest : set_all_simple_values ref val rest
            (clear_simple_value mem base val) x =
              clear_simple_value mem base val x
        · rw [hrest] at h
          by_cases hint : base + val.offset ≤ x ∧
              x < base + val.offset + typeSize val.type
          · exact ⟨b, List.mem_cons_self _ _, base, hb, hv, hint.1, hint.2⟩
          · exact absurd (clear_simple_value_frame mem base val x hint) h
        · obtain ⟨b', hb', hw⟩ :=
            set_all_simple_values_frame ref val rest _ x hrest
          exact ⟨b', List.mem_cons_of_mem _ hb', hw⟩
      · simp only [set_all_simple_values, hb, hv, if_false] at h
        obtain ⟨b', hb', hw⟩ := set_all_simple_values_frame ref val rest mem x h
        exact ⟨b', List.mem_cons_of_mem _ hb', hw⟩

mutual
theorem do_recursive_clean_frame (ref : Nat) (val : StatsFsValue) :
    ∀ (s : Source) (mem : Mem) (x : Nat),
      do_recursive_clean ref val s mem x ≠ mem x →
      ∃ b ∈ bindings_of_tree s, ∃ base, b.base_addr = some base ∧
        b.values = ref ∧
        base + val.offset ≤ x ∧ x < base + val.offset + typeSize val.type
  | .mk binds lbls subs, mem, x, h => by
    simp only [do_recursive_clean] at h
    by_cases hstep : clean_forest ref val subs
        (set_all_simple_values ref val binds mem) x =
          set_all_simple_values ref val binds mem x
    · rw [hstep] at h
      obtain ⟨b, hbmem, hw⟩ := set_all_simple_values_frame ref val binds mem x h
      exact ⟨b, by rw [bindings_of_tree]; exact List.mem_append_left _ hbmem, hw⟩
    · obtain ⟨b, hbmem, hw⟩ := clean_forest_frame ref val subs _ x hstep
      exact ⟨b, by rw [bindings_of_tree]; exact List.mem_append_right _ hbmem, hw⟩
theorem clean_forest_frame (ref : Nat) (val : StatsFsValue) :
    ∀ (f : Forest) (mem : Mem) (x : Nat),
      clean_forest ref val f mem x ≠ mem x →
      ∃ b ∈ bindings_of_forest f, ∃ base, b.base_addr = some base ∧
        b.values = ref ∧
        base + val.offset ≤ x ∧ x < base + val.offset + typeSize val.type
  | .nil, _, _, h => absurd rfl h
  | .cons s rest, mem, x, h => by
    simp only [clean_forest] at h
    by_cases hstep : clean_forest ref val rest
        (do_recursive_clean ref val s mem) x =
          do_recursive_clean ref val s mem x
    · rw [hstep] at h
      obtain ⟨b, hbmem, hw⟩ := do_recursive_clean_frame ref val s mem x h
      exact ⟨b, by rw [bindings_of_forest]; exact List.mem_append_left _ hbmem, hw⟩
    · obtain ⟨b, hbmem, hw⟩ := clean_forest_frame ref val rest _ x hstep
      exact ⟨b, by rw [bindings_of_forest]; exact List.mem_append_right _ hbmem, hw⟩
end

theorem mem_bindings_of_tree_of_mem_bindings (s : Source) (b : ValueSource)
    (h : b ∈ s.bindings) : b ∈ bindings_of_tree s := by
  cases s with
  | mk binds lbls subs =>
    rw [bindings_of_tree]
    exact List.mem_append_left _ h

/-- C10 (confirmed): `clear` on a simple descriptor zeroes exactly the field
at base+offset with the descriptor's declared width — every byte that changes
lies inside the cleared field of a binding with matching array pointer and
non-NULL base, and the cleared field reads back 0; for an aggregate descriptor
the recursive clean likewise only touches matching bindings with non-NULL
base. -/
theorem c10_clear_frame (arrays : Arrays) (source : Source) (arg : ValueRef)
    (mem : Mem) (src_entry : ValueSource) (found : StatsFsValue) (memF : Mem)
    (hfound : search_value_in_source arrays source.bindings arg =
      some (src_entry, found))
    (hres : stats_fs_source_clear_locked arrays source arg mem = some memF) :
    (∀ x, memF x ≠ mem x →
      ∃ b ∈ bindings_of_tree source, ∃ base, b.base_addr = some base ∧
        b.values = src_entry.values ∧
        base + found.offset ≤ x ∧
        x < base + found.offset + typeSize found.type) ∧
    (∀ base, src_entry.base_addr = some base →
      get_simple_value memF base found = 0) := by
  rw [stats_fs_source_clear_locked, hfound] at hres
  dsimp only at hres
  cases hbase : src_entry.base_addr with
  | some base =>
    rw [hbase] at hres
    obtain rfl : clear_simple_value mem base found = memF := Option.some.inj hres
    constructor
    · intro x hx
      by_cases hint : base + found.offset ≤ x ∧
          x < base + found.offset + typeSize found.type
      · exact ⟨src_entry,
          mem_bindings_of_tree_of_mem_bindings source src_entry
            (search_value_in_source_mem arrays _ arg src_entry found hfound),
          base, hbase, rfl, hint.1, hint.2⟩
      · exact absurd (clear_simple_value_frame mem base found x hint) hx
    · intro base' hbase'
      obtain rfl : base = base' := Option.some.inj hbase'
      exact get_simple_value_after_clear mem base found
  | none =>
    rw [hbase] at hres
    obtain rfl : do_recursive_clean src_entry.values found source mem = memF :=
      Option.some.inj hres
    constructor
    · intro x hx
      exact do_recursive_clean_frame src_entry.values found source mem x hx
    · intro base' hbase'
      exact absurd hbase' (by simp)

/-- C10, witness: clearing the simple u64 descriptor of `c10wit_src` only
touches the 8-byte field at base 100 and makes it read back 0. -/
theorem c10_clear_frame_witness :
    (∀ x, clear_simple_value exMem 100
        { name := "x", offset := 0, type := .u64, aggr_kind := .none } x ≠
          exMem x →
      ∃ b ∈ bindings_of_tree c10wit_src, ∃ base,
        b.base_addr = some base ∧ b.values = 2 ∧
        base + 0 ≤ x ∧ x < base + 0 + typeSize StatType.u64) ∧
    (∀ base, (some 100 : Option Nat) = some base →
      get_simple_value
        (clear_simple_value exMem 100
          { name := "x", offset := 0, type := .u64, aggr_kind := .none })
        base
        { name := "x", offset := 0, type := .u64, aggr_kind := .none } = 0) :=
  c10_clear_frame exArrays c10wit_src ⟨2, 0⟩ exMem ⟨some 100, 2⟩
    { name := "x", offset := 0, type := .u64, aggr_kind := .none }
    (clear_simple_value exMem 100
      { name := "x", offset := 0, type := .u64, aggr_kind := .none })
    (by decide) rfl

end StatsFs

namespace MetricFs

theorem row_len_cons (p : List Nat) (ps : List (List Nat)) :
    row_len (p :: ps) = p.length + row_len ps := by
  simp [row_len]

theorem emit_pieces_true :
    ∀ (ps : List (List Nat)) (e : Emitter) (b : Bool),
      (emit_pieces e b ps).2 = true →
      b = true ∧ (emit_pieces e b ps).1.cur = e.cur + row_len ps ∧
        (ps = [] ∨ e.cur + row_len ps < VALUES_BUF_SIZE)
  | [], e, b, h => ⟨h, by simp [emit_pieces, row_len], Or.inl rfl⟩
  | p :: rest, e, b, h => by
    rw [emit_pieces] at h
    obtain ⟨hb, hcur, hcase⟩ := emit_pieces_true rest (emit_piece e p).1
      (b && (emit_piece e p).2) h
    obtain ⟨hb', hp⟩ := Bool.and_eq_true .. ▸ hb
    have hlt : p.length < VALUES_BUF_SIZE - e.cur := by
      have := of_decide_eq_true (by simpa [emit_piece] using hp)
      exact this
    have hcur1 : (emit_piece e p).1.cur = e.cur + p.length := by
      simp only [emit_piece]
      omega
    refine ⟨hb', ?_, Or.inr ?_⟩
    · rw [emit_pieces, hcur, hcur1, row_len_cons]
      omega
    · rcases hcase with hnil | hlt'
      · subst hnil
        rw [row_len_cons]
        simp only [row_len, List.map_nil, List.sum_nil]
        omega
      · rw [hcur1] at hlt'
        rw [row_len_cons]
        omega

theorem writeBytesAt_frame :
    ∀ (bytes : List Nat) (buf : Nat → Nat) (pos x : Nat), x < pos →
      writeBytesAt buf pos bytes x = buf x
  | [], _, _, _, _ => rfl
  | b :: rest, buf, pos, x, h => by
    rw [writeBytesAt,
      writeBytesAt_frame rest _ (pos + 1) x (Nat.lt_succ_of_lt h)]
    rw [if_neg (by omega)]

theorem emit_pieces_frame :
    ∀ (ps : List (List Nat)) (e : Emitter) (b : Bool),
      e.cur ≤ (emit_pieces e b ps).1.cur ∧
        ∀ x, x < e.cur → (emit_pieces e b ps).1.buf x = e.buf x
  | [], e, b => ⟨Nat.le_refl _, fun _ _ => rfl⟩
  | p :: rest, e, b => by
    obtain ⟨hle, hbuf⟩ := emit_pieces_frame rest (emit_piece e p).1
      (b && (emit_piece e p).2)
    have hcur1 : e.cur ≤ (emit_piece e p).1.cur := by
      simp only [emit_piece]
      omega
    refine ⟨?_, ?_⟩
    · rw [emit_pieces]
      exact Nat.le_trans hcur1 hle
    · intro x hx
      rw [emit_pieces, hbuf x (Nat.lt_of_lt_of_le hx hcur1)]
      simp only [emit_piece]
      exact writeBytesAt_frame _ _ _ x hx

/-- C9 (confirmed): integer row emission into a values file is atomic with
respect to the 64-KiB buffer: when the pre-row cursor plus the full row length
exceeds 65 536 bytes, the emitter's cursor is rolled back to the pre-row
checkpoint (the cursor is unchanged) and every buffer byte below the cursor —
hence the whole snapshot that will be served — is unchanged, so no byte of
that row appears in the snapshot. -/
theorem c9_emit_int_atomic (e : Emitter) (v : Int) (f0 f1 : Option (List Nat))
    (hcur : e.cur ≤ VALUES_BUF_SIZE)
    (hover : VALUES_BUF_SIZE < e.cur + row_len (int_row_pieces v f0 f1)) :
    (metric_emit_int_value e v f0 f1).cur = e.cur ∧
    ∀ x, x < e.cur → (metric_emit_int_value e v f0 f1).buf x = e.buf x := by
  rw [metric_emit_int_value, metric_emit_row]
  cases hok : (emit_pieces e true (int_row_pieces v f0 f1)).2 with
  | true =>
    exfalso
    obtain ⟨-, -, hcase⟩ := emit_pieces_true _ e true hok
    rcases hcase with hnil | hlt
    · rw [hnil] at hover
      simp only [row_len, List.map_nil, List.sum_nil] at hover
      omega
    · omega
  | false =>
    rw [if_neg Bool.false_ne_true]
    exact ⟨rfl, fun x hx => (emit_pieces_frame _ e true).2 x hx⟩

/-- C9, witness: with the cursor already at 65 536, emitting the row "0\n"
(length 2) rolls back and leaves the cursor unchanged. -/
theorem c9_emit_int_atomic_witness :
    (metric_emit_int_value exEmitter 0 Option.none Option.none).cur =
      exEmitter.cur :=
  (c9_emit_int_atomic exEmitter 0 Option.none Option.none (by decide)
    (by decide)).1

end MetricFs
